import Mathlib

/-!
Verification of the wordle-solver engine in `src/main.rs`.

The Rust code is shallowly embedded as executable Lean definitions:

* `Mark`, `LetterState`, `GameState` mirror `enum Mark`, `enum LetterState`
  and `type GameState = HashMap<char, LetterState>`.  The hash map is
  modelled as an association list with unique keys (lookup finds the first
  binding, update replaces the first binding), and each `HashSet<usize>` of
  positions is modelled as a duplicate-free list of naturals (`insertPos`
  inserts only when absent, exactly like `HashSet::insert`).  Neither the
  map's nor a set's iteration order influences any result below.
* `computeBucket` embeds `compute_bucket`, `isWordValid` embeds
  `is_word_valid`, `reduceDictionary` embeds `reduce_dictionary`,
  `updateState` embeds `update_state`, `computeMaximalSubsetSize` embeds
  `compute_maximal_subset_size`, `computeGuessScore2` embeds the score that
  `compute_guess_scores_2` assigns to one guess, `computeFrequencies`
  embeds `compute_frequencies` and `decodeMark` embeds the mark-decoding
  `match` inside `interactive`.
* Rust `usize` is 64 bits here; the bitwise complement `!n` that appears in
  `is_word_valid` is embedded as `usizeNot n = 2 ^ 64 - 1 - n`, which is
  exact for every `n < 2 ^ 64` (vector lengths always are).
* `String` values are embedded as `List Char`; `str::find` only has its
  `Option`-ness inspected by the code, embedded via `List.findIdx?`.
  Out-of-range vector indexing panics in Rust; the embedding totalises
  `string_chars[p]` as `List.getD p oobChar`, and every theorem below that
  depends on an indexed access only does so at in-range positions.
* The `f64` scores of `compute_guess_scores_2` are integer-valued
  (`0.0 - max_bucket_size`), hence embedded exactly as `Int`.
-/

set_option autoImplicit false

namespace WordleSolver

/-- Per-position feedback mark, from `enum Mark` in `src/main.rs`. -/
inductive Mark
  | NotPresent
  | Unpositioned
  | Positioned
deriving DecidableEq, Repr

/-- Per-letter knowledge, from `enum LetterState` in `src/main.rs`.
`Somewhere wrong right` carries the known wrong positions and the known
right positions of the letter; the Rust `HashSet<usize>` fields are
modelled as duplicate-free lists. -/
inductive LetterState
  | Unknown
  | NotPresent
  | Somewhere (wrongPositions : List Nat) (rightPositions : List Nat)
deriving DecidableEq, Repr

/-- `type GameState = HashMap<char, LetterState>`, modelled as an
association list with unique keys. -/
abbrev GameState := List (Char × LetterState)

/-- Totalising junk character standing for the value a panicking
out-of-range Rust index would never return; no theorem depends on it. -/
def oobChar : Char := '\x00'

/-- Number of occurrences of `c` in `word`:
`string_chars.into_iter().filter(|&c| c == chr).count()`. -/
def countChar (word : List Char) (c : Char) : Nat :=
  (word.filter (fun x => x == c)).length

/-- Bitwise complement of a 64-bit `usize` value (exact for `n < 2 ^ 64`). -/
def usizeNot (n : Nat) : Nat :=
  2 ^ 64 - 1 - n

/-- The body of the loop of `is_word_valid` for one `(chr, state)` entry,
checks in source order.  The second check embeds the Rust expression
`!string_chars...count() == wrong_positions.len() + right_positions.len()`,
whose `!` is the *bitwise* complement of the count (`usize`), so the check
compares against `usizeNot` of the count exactly as the source does. -/
def checkLetter (word : List Char) (c : Char) (ls : LetterState) : Bool :=
  match ls with
  | LetterState.Somewhere wrongPositions rightPositions =>
    if wrongPositions.any (fun p => word.getD p oobChar == c) then
      false
    else if usizeNot (countChar word c) == wrongPositions.length + rightPositions.length then
      false
    else if !(rightPositions.all (fun p => word.getD p oobChar == c)) then
      false
    else
      true
  | LetterState.NotPresent => !(word.contains c)
  | LetterState.Unknown => true

/-- `is_word_valid(state, word)`: every recorded letter constraint holds. -/
def isWordValid (state : GameState) (word : List Char) : Bool :=
  state.all (fun e => checkLetter word e.1 e.2)

/-- `compute_bucket(guess, word)`: per-position feedback of `guess`
against `word`.  `zip` silently truncates to the shorter argument, and a
non-exact position is classified by `word.find(guess_char)`. -/
def computeBucket (guess : List Char) (word : List Char) : List Mark :=
  (guess.zip word).map (fun gw =>
    if gw.1 == gw.2 then
      Mark.Positioned
    else
      match word.findIdx? (fun c => c == gw.1) with
      | none => Mark.NotPresent
      | some _ => Mark.Unpositioned)

/-- The list of feedback patterns of `words` under `guess` (the values the
grouping in `compute_maximal_subset_size` is keyed by). -/
def bucketList (guess : List Char) (words : List (List Char)) : List (List Mark) :=
  words.map (fun w => computeBucket guess w)

/-- The multiset of group sizes produced by `into_group_map()` inside
`compute_maximal_subset_size`: one count per distinct feedback pattern. -/
def bucketSizes (guess : List Char) (words : List (List Char)) : List Nat :=
  (bucketList guess words).dedup.map (fun b => (bucketList guess words).count b)

/-- `compute_maximal_subset_size(guess, words)`: the size of the largest
feedback-equivalence group, `0` for no groups (`max().unwrap_or(0)`). -/
def computeMaximalSubsetSize (guess : List Char) (words : List (List Char)) : Nat :=
  (bucketSizes guess words).max?.getD 0

/-- The score `compute_guess_scores_2` assigns to one guess:
`0.0 - compute_maximal_subset_size(x, &words)`.  The `f64` is
integer-valued, embedded exactly as an `Int`. -/
def computeGuessScore2 (guess : List Char) (words : List (List Char)) : Int :=
  0 - (computeMaximalSubsetSize guess words : Int)

/-- `reduce_dictionary(state, dict)`: keep the words accepted by
`is_word_valid`. -/
def reduceDictionary (state : GameState) (dict : List (List Char)) : List (List Char) :=
  dict.filter (fun w => isWordValid state w)

/-- `compute_frequencies(words)`: the word count together with, for each
character, how many words contain it at least once and at least twice.
The two per-character `HashMap<char, u32>` accumulators are modelled
extensionally as functions (the loop increments the first counter on a
character's first occurrence in a word and the second on its second
occurrence, so the final tables hold exactly these two quantities). -/
def computeFrequencies (words : List (List Char)) : Nat × (Char → Nat) × (Char → Nat) :=
  (words.length,
   fun c => (words.filter (fun w => w.contains c)).length,
   fun c => (words.filter (fun w => 2 ≤ countChar w c)).length)

/-- `HashMap::get` with `unwrap_or(&Unknown)` (first matching binding). -/
def getLetter (state : GameState) (c : Char) : LetterState :=
  match state with
  | [] => LetterState.Unknown
  | e :: rest => if e.1 == c then e.2 else getLetter rest c

/-- In-place update through `HashMap::entry`: replace the first binding of
`c`, or append a fresh binding when absent. -/
def setLetter (state : GameState) (c : Char) (ls : LetterState) : GameState :=
  match state with
  | [] => [(c, ls)]
  | e :: rest => if e.1 == c then (c, ls) :: rest else e :: setLetter rest c ls

/-- `HashSet::insert`: add a position only when it is not already there. -/
def insertPos (s : List Nat) (n : Nat) : List Nat :=
  if s.contains n then s else n :: s

/-- One iteration of the loop of `update_state` for the pair
`((offset, chr), mark)`: `none` on the wildcard arm that yields
`Err(...)`, otherwise the updated state.  The arm order and the wildcard
coverage (`NotPresent` with any mark, `Somewhere` with `NotPresent`)
follow the source `match`. -/
def applyMark (state : GameState) (offset : Nat) (c : Char) (m : Mark) : Option GameState :=
  match getLetter state c, m with
  | LetterState.Unknown, Mark.NotPresent =>
    some (setLetter state c LetterState.NotPresent)
  | LetterState.Unknown, Mark.Unpositioned =>
    some (setLetter state c (LetterState.Somewhere [offset] []))
  | LetterState.Unknown, Mark.Positioned =>
    some (setLetter state c (LetterState.Somewhere [] [offset]))
  | LetterState.Somewhere wrong right, Mark.Unpositioned =>
    some (setLetter state c (LetterState.Somewhere (insertPos wrong offset) right))
  | LetterState.Somewhere wrong right, Mark.Positioned =>
    some (setLetter state c (LetterState.Somewhere wrong (insertPos right offset)))
  | _, _ => none

/-- The `word.chars().enumerate().zip(marks)` pair list of `update_state`. -/
def mkCharMarks (word : List Char) (marks : List Mark) : List ((Nat × Char) × Mark) :=
  word.enum.zip marks

/-- `update_state(state, ...)` over an explicit pair list: returns the
final state and a success flag.  On the `Err` arm the *current* state is
returned unchanged — the mutations already performed on earlier pairs
stay, exactly as in the Rust function, which mutates `state` in place and
returns `Err` mid-loop. -/
def updateState (state : GameState) (pairs : List ((Nat × Char) × Mark)) : GameState × Bool :=
  match pairs with
  | [] => (state, true)
  | pr :: rest =>
    match applyMark state pr.1.1 pr.1.2 pr.2 with
    | some s2 => updateState s2 rest
    | none => (state, false)

/-- Error-free processing of a pair list: `some` of the resulting state
when no pair conflicts, `none` otherwise.  Used to state which prefix of
the input `update_state` has already applied when it errors. -/
def applyPairs (state : GameState) (pairs : List ((Nat × Char) × Mark)) : Option GameState :=
  match pairs with
  | [] => some state
  | pr :: rest =>
    match applyMark state pr.1.1 pr.1.2 pr.2 with
    | some s2 => applyPairs s2 rest
    | none => none

/-- The pattern-character decoding `match` inside `interactive`:
`'-'` and `'+'` have dedicated arms, everything else hits the wildcard. -/
def decodeMark (c : Char) : Mark :=
  if c == '-' then Mark.NotPresent
  else if c == '+' then Mark.Unpositioned
  else Mark.Positioned

/-- Number of non-`Absent` marks that `pattern` assigns to the positions
of `guess` holding the letter `c`. -/
def nonAbsentCountFor (guess : List Char) (pattern : List Mark) (c : Char) : Nat :=
  ((guess.zip pattern).filter (fun x => x.1 == c && !(x.2 == Mark.NotPresent))).length

/-- Size of the feedback-equivalence class of pattern `p` among `words`
under `guess` (an independent characterisation of a group's size). -/
def fiberCount (guess : List Char) (words : List (List Char)) (p : List Mark) : Nat :=
  (words.filter (fun w => computeBucket guess w == p)).length

/-- Concrete words used by the counterexamples and witnesses below. -/
def wSpeed : List Char := ['s', 'p', 'e', 'e', 'd']

def wErase : List Char := ['e', 'r', 'a', 's', 'e']

def wGeese : List Char := ['g', 'e', 'e', 's', 'e']

def wTiger : List Char := ['t', 'i', 'g', 'e', 'r']

def wAaaaa : List Char := ['a', 'a', 'a', 'a', 'a']

def wBbbbb : List Char := ['b', 'b', 'b', 'b', 'b']

def wAbcde : List Char := ['a', 'b', 'c', 'd', 'e']

def wZzzzz : List Char := ['z', 'z', 'z', 'z', 'z']

def wAb : List Char := ['a', 'b']

def wZaaaa : List Char := ['z', 'a', 'a', 'a', 'a']

/-- What being a pair `((off, c), m)` of the list
`(guess.enum).zip (computeBucket guess w)` means for the word `w`: the
facts about `w` that each mark kind carries.  Used to prove that a word
whose classification produced the recorded pattern passes the filter. -/
def pairOkWord (w : List Char) (off : Nat) (c : Char) (m : Mark) : Prop :=
  (m = Mark.NotPresent → w.contains c = false) ∧
  (m = Mark.Unpositioned → off < w.length ∧ ¬(w.getD off oobChar = c)) ∧
  (m = Mark.Positioned → off < w.length ∧ w.getD off oobChar = c)

/-- Every position set recorded in the state has at most `B` members in
total per letter; tracks that the never-triggering complement check in
`is_word_valid` stays out of range. -/
def stateSizesLe (s : GameState) (B : Nat) : Prop :=
  ∀ c wrong right, getLetter s c = LetterState.Somewhere wrong right →
    wrong.length + right.length ≤ B

/-- The partially updated state reached by recording the pattern
`[Unpositioned, NotPresent, NotPresent, NotPresent, NotPresent]` for the
guess `"abcde"` from the empty state. -/
def sigmaC2 : GameState :=
  [('a', LetterState.Somewhere [0] []), ('b', LetterState.NotPresent),
   ('c', LetterState.NotPresent), ('d', LetterState.NotPresent),
   ('e', LetterState.NotPresent)]

def marksC2 : List Mark :=
  [Mark.Unpositioned, Mark.NotPresent, Mark.NotPresent, Mark.NotPresent, Mark.NotPresent]

/-- The state reached by recording an all-`NotPresent` pattern for the
guess `"abcde"` from the empty state. -/
def sigmaC4 : GameState :=
  [('a', LetterState.NotPresent), ('b', LetterState.NotPresent),
   ('c', LetterState.NotPresent), ('d', LetterState.NotPresent),
   ('e', LetterState.NotPresent)]

def marksC4 : List Mark :=
  [Mark.NotPresent, Mark.NotPresent, Mark.NotPresent, Mark.NotPresent, Mark.NotPresent]

/-! ## Helper lemmas -/

theorem zip_self_eq_map (l : List Char) : l.zip l = l.map (fun a => (a, a)) := by
  induction l with
  | nil => rfl
  | cons a t ih => simp [List.zip_cons_cons, ih]

theorem map_zip_getD {α β γ : Type} (f : α × β → γ) (l1 : List α) (l2 : List β)
    (i : Nat) (d : γ) (da : α) (db : β) (h1 : i < l1.length) (h2 : i < l2.length) :
    ((l1.zip l2).map f).getD i d = f (l1.getD i da, l2.getD i db) := by
  induction l1 generalizing l2 i with
  | nil => simp at h1
  | cons a t ih =>
    cases l2 with
    | nil => simp at h2
    | cons b t2 =>
      cases i with
      | zero => rfl
      | succ n =>
        simp only [List.zip_cons_cons, List.map_cons, List.getD_cons_succ]
        exact ih t2 n (by simpa using h1) (by simpa using h2)

theorem findIdx?_beq_none (word : List Char) (c : Char) :
    word.findIdx? (fun x => x == c) = none ↔ word.contains c = false := by
  rw [List.findIdx?_eq_none_iff]
  simp [List.contains_eq_any_beq]
  constructor
  · intro h hc
    exact h c hc rfl
  · intro h x hx hxc
    exact h (hxc ▸ hx)

theorem count_map_eq_length_filter {α β : Type} [BEq β] [LawfulBEq β] (f : α → β)
    (l : List α) (b : β) :
    (l.map f).count b = (l.filter (fun a => f a == b)).length := by
  induction l with
  | nil => rfl
  | cons a t ih =>
    by_cases h : (f a == b) = true
    · simp only [List.map_cons, List.count_cons, List.filter_cons, h, ih, if_true]
      rfl
    · simp only [List.map_cons, List.count_cons, List.filter_cons, h, ih,
        Bool.false_eq_true, if_false]
      simp [show (f a == b) = false by simpa using h]

theorem count_bucketList_eq_fiberCount (guess : List Char) (words : List (List Char))
    (p : List Mark) :
    (bucketList guess words).count p = fiberCount guess words p := by
  rw [bucketList, fiberCount]
  exact count_map_eq_length_filter _ words p

theorem count_beq_eq_count_deq {α : Type} [inst1 : BEq α] [LawfulBEq α] [DecidableEq α]
    (b : α) (l : List α) :
    @List.count α inst1 b l = @List.count α instBEqOfDecidableEq b l := by
  induction l with
  | nil => rfl
  | cons a t ih =>
    rw [@List.count_cons α inst1, @List.count_cons α instBEqOfDecidableEq, ih]
    by_cases h : a = b
    · subst h
      simp
    · simp [h]

theorem sum_map_count_dedup (l : List (List Mark)) :
    (l.dedup.map (fun b => l.count b)).sum = l.length := by
  have h := Multiset.toFinset_sum_count_eq (l : Multiset (List Mark))
  have h2 : (l.dedup.map (fun b => @List.count (List Mark) instBEqOfDecidableEq b l)).sum
      = l.length := by
    simpa [Finset.sum, Multiset.toFinset] using h
  rw [List.map_congr_left (fun b _ => count_beq_eq_count_deq b l)]
  exact h2

theorem map_zip_self_replicate {γ : Type} (f : Char × Char → γ) (v : γ)
    (hf : ∀ a : Char, f (a, a) = v) (u : List Char) :
    (u.zip u).map f = List.replicate u.length v := by
  induction u with
  | nil => rfl
  | cons a t ih =>
    simp only [List.zip_cons_cons, List.map_cons, List.length_cons, List.replicate_succ, hf, ih]

/-- Positionwise characterisation of `compute_bucket`: a position is
`Positioned` exactly on a letter match, and otherwise classified by mere
membership of the guess letter anywhere in the word. -/
theorem computeBucket_getD (guess word : List Char) (i : Nat)
    (h1 : i < guess.length) (h2 : i < word.length) :
    (computeBucket guess word).getD i Mark.NotPresent =
      (if guess.getD i oobChar = word.getD i oobChar then Mark.Positioned
       else if (guess.getD i oobChar) ∈ word then Mark.Unpositioned
       else Mark.NotPresent) := by
  rw [computeBucket, map_zip_getD _ guess word i _ oobChar oobChar h1 h2]
  by_cases hEq : guess.getD i oobChar = word.getD i oobChar
  · rw [if_pos hEq]
    have hb : (guess.getD i oobChar == word.getD i oobChar) = true := by simpa using hEq
    simp only [hb, if_true]
  · rw [if_neg hEq]
    have hb : (guess.getD i oobChar == word.getD i oobChar) = false := by simpa using hEq
    simp only [hb, Bool.false_eq_true, if_false]
    cases hf : word.findIdx? (fun c => c == guess.getD i oobChar) with
    | none =>
      have hmem : guess.getD i oobChar ∉ word := by
        simpa using (findIdx?_beq_none word _).mp hf
      rw [if_neg hmem]
    | some j =>
      have hmem : guess.getD i oobChar ∈ word := by
        have hc : ¬(word.contains (guess.getD i oobChar) = false) := by
          intro hc
          rw [(findIdx?_beq_none word _).mpr hc] at hf
          exact Option.noConfusion hf
        simpa using hc
      rw [if_pos hmem]

theorem computeBucket_length (guess word : List Char) :
    (computeBucket guess word).length = min guess.length word.length := by
  simp [computeBucket]

theorem getLetter_setLetter_same (s : GameState) (c : Char) (ls : LetterState) :
    getLetter (setLetter s c ls) c = ls := by
  induction s with
  | nil => simp [setLetter, getLetter]
  | cons e rest ih =>
    by_cases h : e.1 = c
    · simp [setLetter, getLetter, h]
    · simp [setLetter, getLetter, h, ih]

theorem getLetter_setLetter_other (s : GameState) (c c2 : Char) (ls : LetterState)
    (h : c2 ≠ c) : getLetter (setLetter s c ls) c2 = getLetter s c2 := by
  induction s with
  | nil => simp [setLetter, getLetter, h, Ne.symm h]
  | cons e rest ih =>
    by_cases he : e.1 = c
    · simp [setLetter, getLetter, he, h, Ne.symm h]
    · by_cases he2 : e.1 = c2
      · simp [setLetter, getLetter, he, he2, h, Ne.symm h]
      · simp [setLetter, getLetter, he, he2, h, Ne.symm h, ih]

theorem isWordValid_setLetter (s : GameState) (w : List Char) (c : Char) (ls : LetterState)
    (hv : isWordValid s w = true) (hc : checkLetter w c ls = true) :
    isWordValid (setLetter s c ls) w = true := by
  induction s with
  | nil => simp [setLetter, isWordValid, hc]
  | cons e rest ih =>
    rw [isWordValid, List.all_cons, Bool.and_eq_true] at hv
    by_cases h : e.1 = c
    · rw [setLetter]
      simp only [h, beq_self_eq_true, if_true]
      rw [isWordValid, List.all_cons, Bool.and_eq_true]
      exact ⟨hc, hv.2⟩
    · rw [setLetter]
      simp only [show (e.1 == c) = false by simpa using h, Bool.false_eq_true, if_false]
      rw [isWordValid, List.all_cons, Bool.and_eq_true]
      exact ⟨hv.1, ih hv.2⟩

theorem checkLetter_getLetter (s : GameState) (w : List Char) (c : Char)
    (hv : isWordValid s w = true) : checkLetter w c (getLetter s c) = true := by
  induction s with
  | nil => simp [getLetter, checkLetter]
  | cons e rest ih =>
    rw [isWordValid, List.all_cons, Bool.and_eq_true] at hv
    by_cases h : e.1 = c
    · rw [getLetter]
      simp only [show (e.1 == c) = true by simpa using h, if_true]
      rw [← h]
      exact hv.1
    · rw [getLetter]
      simp only [show (e.1 == c) = false by simpa using h, Bool.false_eq_true, if_false]
      exact ih hv.2
theorem insertPos_length_le (l : List Nat) (n : Nat) :
    (insertPos l n).length ≤ l.length + 1 := by
  rw [insertPos]
  split
  · exact Nat.le_succ _
  · exact Nat.le_refl _

theorem any_insertPos_false (l : List Nat) (n : Nat) (f : Nat → Bool)
    (hl : l.any f = false) (hn : f n = false) : (insertPos l n).any f = false := by
  rw [insertPos]
  split
  · exact hl
  · simp [List.any_cons, hn, hl]

theorem all_insertPos_true (l : List Nat) (n : Nat) (f : Nat → Bool)
    (hl : l.all f = true) (hn : f n = true) : (insertPos l n).all f = true := by
  rw [insertPos]
  split
  · exact hl
  · simp [List.all_cons, hn, hl]

theorem checkLetter_somewhere_iff (w : List Char) (c : Char) (wrong right : List Nat) :
    checkLetter w c (LetterState.Somewhere wrong right) = true ↔
      (wrong.any (fun p => w.getD p oobChar == c) = false ∧
       usizeNot (countChar w c) ≠ wrong.length + right.length ∧
       right.all (fun p => w.getD p oobChar == c) = true) := by
  rw [checkLetter]
  by_cases h1 : wrong.any (fun p => w.getD p oobChar == c) = true
  · simp [h1]
  · have h1f : wrong.any (fun p => w.getD p oobChar == c) = false := by
      simpa using h1
    by_cases h2 : usizeNot (countChar w c) = wrong.length + right.length
    · simp [h1f, h2]
    · have h2f : (usizeNot (countChar w c) == wrong.length + right.length) = false := by
        simpa using h2
      by_cases h3 : right.all (fun p => w.getD p oobChar == c) = true
      · simp [h1f, h2f, h2, h3]
      · have h3f : right.all (fun p => w.getD p oobChar == c) = false := by
          simpa using h3
        simp [h1f, h2f, h2, h3f]

theorem countChar_le_length (w : List Char) (c : Char) : countChar w c ≤ w.length := by
  rw [countChar]
  exact List.length_filter_le _ _

theorem usizeNot_gt (w : List Char) (c : Char) (B : Nat)
    (hnum : B + 1 + w.length < 2 ^ 64 - 1) :
    B + 1 < usizeNot (countChar w c) := by
  have hc := countChar_le_length w c
  have hpow : (2 : Nat) ^ 64 = 18446744073709551616 := by norm_num
  rw [usizeNot, hpow]
  rw [hpow] at hnum
  omega
theorem stateSizesLe_setLetter (s : GameState) (c : Char) (ls : LetterState) (B : Nat)
    (hs : stateSizesLe s B)
    (hls : ∀ wrong right, ls = LetterState.Somewhere wrong right →
      wrong.length + right.length ≤ B + 1) :
    stateSizesLe (setLetter s c ls) (B + 1) := by
  intro c2 wrong right hgl
  by_cases h : c2 = c
  · subst h
    rw [getLetter_setLetter_same] at hgl
    exact hls wrong right hgl
  · rw [getLetter_setLetter_other s c c2 ls h] at hgl
    exact Nat.le_trans (hs c2 wrong right hgl) (Nat.le_succ B)

theorem applyMark_preserves (w : List Char) (s s2 : GameState) (off : Nat) (c : Char)
    (m : Mark) (B : Nat)
    (happ : applyMark s off c m = some s2)
    (hv : isWordValid s w = true)
    (hs : stateSizesLe s B)
    (hnum : B + 1 + w.length < 2 ^ 64 - 1)
    (hok : pairOkWord w off c m) :
    isWordValid s2 w = true ∧ stateSizesLe s2 (B + 1) := by
  have hold := checkLetter_getLetter s w c hv
  have hgtNot := usizeNot_gt w c B hnum
  cases hgl : getLetter s c with
  | Unknown =>
    cases m with
    | NotPresent =>
      simp only [applyMark, hgl, Option.some.injEq] at happ
      subst happ
      have hnc : c ∉ w := by simpa using hok.1 rfl
      have hc : checkLetter w c LetterState.NotPresent = true := by
        simp [checkLetter, hnc]
      refine ⟨isWordValid_setLetter s w c _ hv hc, ?_⟩
      exact stateSizesLe_setLetter s c _ B hs (by intro wr r h; exact absurd h (by simp))
    | Unpositioned =>
      simp only [applyMark, hgl, Option.some.injEq] at happ
      subst happ
      obtain ⟨hofflt, hne⟩ := hok.2.1 rfl
      have hne2 : (w.getD off oobChar == c) = false := by
        rw [beq_eq_false_iff_ne]
        exact hne
      have hc : checkLetter w c (LetterState.Somewhere [off] []) = true := by
        rw [checkLetter_somewhere_iff]
        refine ⟨?_, ?_, by simp⟩
        · simp only [List.any_cons, List.any_nil, hne2, Bool.or_false]
        · simp only [List.length_cons, List.length_nil]
          omega
      refine ⟨isWordValid_setLetter s w c _ hv hc, ?_⟩
      apply stateSizesLe_setLetter s c _ B hs
      intro wr r h
      rw [LetterState.Somewhere.injEq] at h
      rw [← h.1, ← h.2]
      simp
    | Positioned =>
      simp only [applyMark, hgl, Option.some.injEq] at happ
      subst happ
      obtain ⟨hofflt, heq⟩ := hok.2.2 rfl
      have heq2 : (w.getD off oobChar == c) = true := by
        rw [beq_iff_eq]
        exact heq
      have hc : checkLetter w c (LetterState.Somewhere [] [off]) = true := by
        rw [checkLetter_somewhere_iff]
        refine ⟨by simp, ?_, ?_⟩
        · simp only [List.length_cons, List.length_nil]
          omega
        · simp only [List.all_cons, List.all_nil, heq2, Bool.and_true]
      refine ⟨isWordValid_setLetter s w c _ hv hc, ?_⟩
      apply stateSizesLe_setLetter s c _ B hs
      intro wr r h
      rw [LetterState.Somewhere.injEq] at h
      rw [← h.1, ← h.2]
      simp
  | NotPresent =>
    cases m <;> simp [applyMark, hgl] at happ
  | Somewhere wrong right =>
    rw [hgl] at hold
    rw [checkLetter_somewhere_iff] at hold
    obtain ⟨hany, _, hall⟩ := hold
    have hsz : wrong.length + right.length ≤ B := hs c wrong right hgl
    cases m with
    | NotPresent =>
      simp [applyMark, hgl] at happ
    | Unpositioned =>
      simp only [applyMark, hgl, Option.some.injEq] at happ
      subst happ
      obtain ⟨hofflt, hne⟩ := hok.2.1 rfl
      have hc : checkLetter w c (LetterState.Somewhere (insertPos wrong off) right) = true := by
        rw [checkLetter_somewhere_iff]
        refine ⟨any_insertPos_false wrong off _ hany (by rw [beq_eq_false_iff_ne]; exact hne), ?_, hall⟩
        have hlen := insertPos_length_le wrong off
        omega
      refine ⟨isWordValid_setLetter s w c _ hv hc, ?_⟩
      apply stateSizesLe_setLetter s c _ B hs
      intro wr r h
      rw [LetterState.Somewhere.injEq] at h
      rw [← h.1, ← h.2]
      have hlen := insertPos_length_le wrong off
      omega
    | Positioned =>
      simp only [applyMark, hgl, Option.some.injEq] at happ
      subst happ
      obtain ⟨hofflt, heq⟩ := hok.2.2 rfl
      have hc : checkLetter w c (LetterState.Somewhere wrong (insertPos right off)) = true := by
        rw [checkLetter_somewhere_iff]
        refine ⟨hany, ?_, all_insertPos_true right off _ hall (by rw [beq_iff_eq]; exact heq)⟩
        have hlen := insertPos_length_le right off
        omega
      refine ⟨isWordValid_setLetter s w c _ hv hc, ?_⟩
      apply stateSizesLe_setLetter s c _ B hs
      intro wr r h
      rw [LetterState.Somewhere.injEq] at h
      rw [← h.1, ← h.2]
      have hlen := insertPos_length_le right off
      omega
theorem updateState_sound (w : List Char) (pairs : List ((Nat × Char) × Mark)) :
    ∀ (s : GameState) (B : Nat) (s2 : GameState),
      isWordValid s w = true →
      stateSizesLe s B →
      B + pairs.length + w.length < 2 ^ 64 - 1 →
      (∀ pr ∈ pairs, pairOkWord w pr.1.1 pr.1.2 pr.2) →
      updateState s pairs = (s2, true) →
      isWordValid s2 w = true := by
  induction pairs with
  | nil =>
    intro s B s2 hv _ _ _ hupd
    simp only [updateState, Prod.mk.injEq] at hupd
    exact hupd.1 ▸ hv
  | cons pr rest ih =>
    intro s B s2 hv hs hnum hok hupd
    cases hap : applyMark s pr.1.1 pr.1.2 pr.2 with
    | none =>
      simp [updateState, hap] at hupd
    | some smid =>
      have hupd2 : updateState smid rest = (s2, true) := by
        rw [← hupd]
        simp [updateState, hap]
      have hpr := hok pr (List.mem_cons_self pr rest)
      obtain ⟨hv2, hs2⟩ := applyMark_preserves w s smid pr.1.1 pr.1.2 pr.2 B hap hv hs
        (by simp only [List.length_cons] at hnum; omega) hpr
      exact ih smid (B + 1) s2 hv2 hs2
        (by simp only [List.length_cons] at hnum; omega)
        (fun q hq => hok q (List.mem_cons_of_mem pr hq)) hupd2

theorem pairOk_of_bucket (g w : List Char) (hlen : w.length = g.length) :
    ∀ pr ∈ mkCharMarks g (computeBucket g w), pairOkWord w pr.1.1 pr.1.2 pr.2 := by
  intro pr hpr
  rw [mkCharMarks] at hpr
  obtain ⟨k, hk⟩ := List.mem_iff_getElem?.mp hpr
  rw [List.getElem?_zip_eq_some] at hk
  obtain ⟨hk1, hk2⟩ := hk
  rw [List.getElem?_enum] at hk1
  obtain ⟨hkb, hb⟩ := List.getElem?_eq_some.mp hk2
  have hkg : k < g.length := by
    have := hkb
    rw [computeBucket_length] at this
    omega
  have hkw : k < w.length := by
    have := hkb
    rw [computeBucket_length] at this
    omega
  obtain ⟨gc, hgc, hpr1⟩ : ∃ gc, g[k]? = some gc ∧ pr.1 = (k, gc) := by
    cases hgk : g[k]? with
    | none => rw [hgk] at hk1; exact Option.noConfusion hk1
    | some x =>
      rw [hgk] at hk1
      simp only [Option.map_some'] at hk1
      exact ⟨x, rfl, by rw [← Option.some.inj hk1]⟩
  have hgd : g.getD k oobChar = gc := by
    rw [List.getD_eq_getElem?_getD, hgc]
    rfl
  have hbk : (computeBucket g w).getD k Mark.NotPresent = pr.2 := by
    rw [List.getD_eq_getElem?_getD, hk2]
    rfl
  rw [computeBucket_getD g w k hkg hkw, hgd] at hbk
  rw [pairOkWord, hpr1]
  by_cases h1 : gc = w.getD k oobChar
  · rw [if_pos h1] at hbk
    refine ⟨?_, ?_, ?_⟩
    · intro hm
      rw [← hbk] at hm
      exact Mark.noConfusion hm
    · intro hm
      rw [← hbk] at hm
      exact Mark.noConfusion hm
    · intro _
      exact ⟨hkw, h1.symm⟩
  · rw [if_neg h1] at hbk
    by_cases h2 : gc ∈ w
    · rw [if_pos h2] at hbk
      refine ⟨?_, ?_, ?_⟩
      · intro hm
        rw [← hbk] at hm
        exact Mark.noConfusion hm
      · intro _
        exact ⟨hkw, fun hEq => h1 hEq.symm⟩
      · intro hm
        rw [← hbk] at hm
        exact Mark.noConfusion hm
    · rw [if_neg h2] at hbk
      refine ⟨?_, ?_, ?_⟩
      · intro _
        simpa using h2
      · intro hm
        rw [← hbk] at hm
        exact Mark.noConfusion hm
      · intro hm
        rw [← hbk] at hm
        exact Mark.noConfusion hm

/-! ## Claim theorems -/

/-- C1, counterexample: classifying the guess `"speed"` against the target
`"erase"` gives the letter `'e'` *two* non-Absent marks, not exactly one;
and the general bound fails too: classifying `"geese"` against `"tiger"`
gives `'e'` three non-Absent marks (none of them Exact) although `'e'`
occurs only once in `"tiger"`. -/
theorem claim1_counterexample :
    nonAbsentCountFor wSpeed (computeBucket wSpeed wErase) 'e' = 2 ∧
      ¬nonAbsentCountFor wSpeed (computeBucket wSpeed wErase) 'e' = 1 ∧
      nonAbsentCountFor wGeese (computeBucket wGeese wTiger) 'e' = 3 ∧
      countChar wTiger 'e' = 1 ∧
      computeBucket wGeese wTiger =
        [Mark.Unpositioned, Mark.Unpositioned, Mark.Unpositioned,
         Mark.NotPresent, Mark.Unpositioned] := by
  decide

/-- C1, amended: `compute_bucket` marks a non-exact guess position
non-Absent exactly when the guess letter occurs anywhere in the target, so
a repeated guess letter is not limited by the target's letter count;
concretely, classifying `"speed"` against `"erase"` produces exactly two
non-Absent marks across the two occurrences of `'e'`. -/
theorem claim1_amended :
    (∀ (guess word : List Char) (i : Nat), i < guess.length → i < word.length →
      (computeBucket guess word).getD i Mark.NotPresent =
        (if guess.getD i oobChar = word.getD i oobChar then Mark.Positioned
         else if (guess.getD i oobChar) ∈ word then Mark.Unpositioned
         else Mark.NotPresent)) ∧
    nonAbsentCountFor wSpeed (computeBucket wSpeed wErase) 'e' = 2 :=
  ⟨computeBucket_getD, by decide⟩

/-- Witness for C1's amended theorem at guess `"speed"`, target `"erase"`,
position 2 (the first `'e'` of the guess). -/
theorem claim1_amended_witness :
    (computeBucket wSpeed wErase).getD 2 Mark.NotPresent =
      (if wSpeed.getD 2 oobChar = wErase.getD 2 oobChar then Mark.Positioned
       else if (wSpeed.getD 2 oobChar) ∈ wErase then Mark.Unpositioned
       else Mark.NotPresent) :=
  claim1_amended.1 wSpeed wErase 2 (by decide) (by decide)

/-- C2, counterexample: record the guess `"abcde"` with the pattern
`[Unpositioned, NotPresent, NotPresent, NotPresent, NotPresent]`; the word
`"zzzzz"` survives `reduce_dictionary` although classifying `"abcde"`
against it yields the all-`NotPresent` pattern, not the observed one, so
the reduction is *not* the classify-filter of the claim. -/
theorem claim2_counterexample :
    updateState [] (mkCharMarks wAbcde marksC2) = (sigmaC2, true) ∧
      reduceDictionary sigmaC2 [wZzzzz] = [wZzzzz] ∧
      List.filter (fun w => computeBucket wAbcde w == marksC2) [wZzzzz] = [] := by
  decide

/-- C2, amended: after recording pattern `p` for guess `g` via
`update_state` (from the empty state, successfully), `reduce_dictionary`
keeps every candidate of the guess's length whose classification against
`g` reproduces `p`; the converse direction of the claim fails (see the
counterexample), so the reduction is a lossy superset of the
classify-filter, not the exact set. -/
theorem claim2_amended (g : List Char) (marks : List Mark) (S : List (List Char))
    (sFinal : GameState)
    (hupd : updateState [] (mkCharMarks g marks) = (sFinal, true))
    (hbound : g.length < 2 ^ 62) :
    ∀ w ∈ S, w.length = g.length → computeBucket g w = marks →
      w ∈ reduceDictionary sFinal S := by
  intro w hw hwlen hbucket
  rw [reduceDictionary, List.mem_filter]
  refine ⟨hw, ?_⟩
  subst hbucket
  have hplen : (mkCharMarks g (computeBucket g w)).length = g.length := by
    rw [mkCharMarks, List.length_zip, List.enum_length, computeBucket_length, hwlen]
    simp
  apply updateState_sound w (mkCharMarks g (computeBucket g w)) [] 0 sFinal rfl ?_ ?_
    (pairOk_of_bucket g w hwlen) hupd
  · intro c wr r h
    rw [getLetter] at h
    exact absurd h (by simp)
  · rw [hplen, hwlen]
    have hp62 : (2 : Nat) ^ 62 = 4611686018427387904 := by norm_num
    have hp64 : (2 : Nat) ^ 64 = 18446744073709551616 := by norm_num
    rw [hp64]
    rw [hp62] at hbound
    omega

/-- Witness for C2's amended theorem: the word `"zaaaa"` classifies to
the recorded pattern of the counterexample state and indeed survives. -/
theorem claim2_amended_witness :
    wZaaaa ∈ reduceDictionary sigmaC2 [wZaaaa] :=
  claim2_amended wAbcde marksC2 [wZaaaa] sigmaC2 (by decide) (by decide) wZaaaa
    (by decide) (by decide) (by decide)

/-- C3, counterexample: for the guess `"aaaaa"` over the candidate list
`["aaaaa", "bbbbb"]` the implemented score is `-1` (the negated maximal
bucket size), while `log2(N / max bucket size) = log2(2 / 1) = 1`. -/
theorem claim3_counterexample :
    computeGuessScore2 wAaaaa [wAaaaa, wBbbbb] = -1 ∧
      ((computeGuessScore2 wAaaaa [wAaaaa, wBbbbb] : ℝ) ≠
        Real.logb 2 ((([wAaaaa, wBbbbb] : List (List Char)).length : ℝ) /
          (computeMaximalSubsetSize wAaaaa [wAaaaa, wBbbbb] : ℝ))) := by
  have h1 : computeGuessScore2 wAaaaa [wAaaaa, wBbbbb] = -1 := by decide
  have h2 : computeMaximalSubsetSize wAaaaa [wAaaaa, wBbbbb] = 1 := by decide
  refine ⟨h1, ?_⟩
  rw [h1, h2]
  norm_num

/-- C3, amended: for a non-empty candidate list the Worst-Case score that
`compute_guess_scores_2` assigns to a guess is the *negation of the size
of the largest feedback-equivalence bucket* of the candidates under that
guess (not `log2(N / max bucket size)`); for an empty candidate list the
score is `0`. -/
theorem claim3_amended :
    (∀ guess : List Char, computeGuessScore2 guess [] = 0) ∧
    (∀ (guess : List Char) (words : List (List Char)), words ≠ [] →
      ∃ p, p ∈ bucketList guess words ∧
        computeGuessScore2 guess words = -(fiberCount guess words p : Int) ∧
        ∀ q : List Mark, fiberCount guess words q ≤ fiberCount guess words p) := by
  constructor
  · intro guess
    rfl
  · intro guess words hne
    have hbs : bucketSizes guess words ≠ [] := by
      simp [bucketSizes, bucketList, List.dedup_eq_nil, hne]
    obtain ⟨m, hm⟩ : ∃ m, (bucketSizes guess words).max? = some m := by
      cases h : (bucketSizes guess words).max? with
      | none => exact absurd (List.max?_eq_none_iff.mp h) hbs
      | some m => exact ⟨m, rfl⟩
    obtain ⟨hmem, hmax⟩ := List.max?_eq_some_iff'.mp hm
    rw [bucketSizes] at hmem
    obtain ⟨b, hb, hcount⟩ := List.mem_map.mp hmem
    have hscore : computeMaximalSubsetSize guess words = m := by
      rw [computeMaximalSubsetSize, hm]
      rfl
    refine ⟨b, List.mem_dedup.mp hb, ?_, ?_⟩
    · rw [computeGuessScore2, hscore, ← hcount, count_bucketList_eq_fiberCount]
      omega
    · intro q
      by_cases hq : q ∈ bucketList guess words
      · have hqmem : (bucketList guess words).count q ∈ bucketSizes guess words :=
          List.mem_map.mpr ⟨q, List.mem_dedup.mpr hq, rfl⟩
        have hle := hmax _ hqmem
        rw [← count_bucketList_eq_fiberCount, ← count_bucketList_eq_fiberCount, hcount]
        exact hle
      · have hzero : fiberCount guess words q = 0 := by
          rw [← count_bucketList_eq_fiberCount]
          exact List.count_eq_zero.mpr hq
        rw [hzero]
        exact Nat.zero_le _

/-- Witness for C3's amended theorem at the guess `"aaaaa"` over the
candidate list `["aaaaa", "bbbbb"]`. -/
theorem claim3_amended_witness :
    ∃ p, p ∈ bucketList wAaaaa [wAaaaa, wBbbbb] ∧
      computeGuessScore2 wAaaaa [wAaaaa, wBbbbb] =
        -(fiberCount wAaaaa [wAaaaa, wBbbbb] p : Int) ∧
      ∀ q : List Mark, fiberCount wAaaaa [wAaaaa, wBbbbb] q ≤
        fiberCount wAaaaa [wAaaaa, wBbbbb] p :=
  claim3_amended.2 wAaaaa [wAaaaa, wBbbbb] (by decide)

/-- C4, evaluation at the failing input: recording the all-`NotPresent`
pattern for the guess `"abcde"` succeeds and empties the reduced
dictionary `["abcde"]`, so the word count that `compute_frequencies`
returns — the divisor of `compute_guess_probability` — is `0` there,
contradicting the claim that the divisor is non-zero whenever scoring
runs. -/
theorem claim4_zeroDivisor :
    updateState [] (mkCharMarks wAbcde marksC4) = (sigmaC4, true) ∧
      reduceDictionary sigmaC4 [wAbcde] = [] ∧
      (computeFrequencies (reduceDictionary sigmaC4 [wAbcde])).1 = 0 := by
  decide

/-- C5, counterexample: called on the guess `"ab"` and the word
`"abcde"` of different lengths, `compute_bucket` does not fail — it
silently returns the two-mark pattern `[Positioned, Positioned]`. -/
theorem claim5_counterexample :
    wAb.length ≠ wAbcde.length ∧
      computeBucket wAb wAbcde = [Mark.Positioned, Mark.Positioned] := by
  decide

/-- C5, amended: on arguments of different lengths `compute_bucket` does
not fail fast; it silently returns a feedback pattern of length
`min |guess| |word|` (the `zip` truncates to the shorter argument). -/
theorem claim5_amended (guess word : List Char) :
    (computeBucket guess word).length = min guess.length word.length := by
  simp [computeBucket]

/-- C6: the group sizes produced by the pattern-grouping inside
`compute_maximal_subset_size` sum exactly to the number of candidates. -/
theorem claim6_partitionTotal (guess : List Char) (words : List (List Char)) :
    (bucketSizes guess words).sum = words.length := by
  rw [bucketSizes, sum_map_count_dedup, bucketList, List.length_map]

/-- C7: classifying any word against itself yields the all-Exact
(`Positioned`) pattern. -/
theorem claim7_selfClassify (w : List Char) :
    computeBucket w w = List.replicate w.length Mark.Positioned := by
  unfold computeBucket
  exact map_zip_self_replicate _ _ (fun a => by simp) w

/-- C8: filtering a candidate list twice through `reduce_dictionary` with
the same game state gives the same result as filtering once. -/
theorem claim8_reduceIdempotent (state : GameState) (S : List (List Char)) :
    reduceDictionary state (reduceDictionary state S) = reduceDictionary state S := by
  simp [reduceDictionary, List.filter_filter]

/-- C9: the interactive pattern decoding maps `'-'` to `NotPresent`
(Absent), `'+'` to `Unpositioned` (Present-Elsewhere), and every other
character to `Positioned` (Exact). -/
theorem claim9_decodeMark :
    decodeMark '-' = Mark.NotPresent ∧ decodeMark '+' = Mark.Unpositioned ∧
      ∀ c : Char, c ≠ '-' → c ≠ '+' → decodeMark c = Mark.Positioned := by
  refine ⟨by decide, by decide, ?_⟩
  intro c h1 h2
  have b1 : (c == '-') = false := by simpa using h1
  have b2 : (c == '+') = false := by simpa using h2
  simp [decodeMark, b1, b2]

/-- Witness for C9 at the concrete character `'x'`. -/
theorem claim9_decodeMark_witness : decodeMark 'x' = Mark.Positioned :=
  claim9_decodeMark.2.2 'x' (by decide) (by decide)

/-- C10: a pair makes `update_state` error exactly when its character was
previously recorded `NotPresent` (whatever the new mark) or previously
recorded `Somewhere` with a new `NotPresent` mark; the run errors exactly
when some processed pair conflicts in this way with the state built so
far, and on error the returned state is the one reached by applying all
pairs before the first conflicting one — the update is not atomic. -/
theorem claim10_updateErr :
    (∀ (s : GameState) (off : Nat) (c : Char) (m : Mark),
      applyMark s off c m = none ↔
        (getLetter s c = LetterState.NotPresent ∨
          (m = Mark.NotPresent ∧
            ∃ wrong right, getLetter s c = LetterState.Somewhere wrong right))) ∧
    (∀ (s0 : GameState) (pairs : List ((Nat × Char) × Mark)),
      ((updateState s0 pairs).2 = false ↔
        ∃ (k : Nat) (s1 : GameState) (pk : (Nat × Char) × Mark),
          pairs[k]? = some pk ∧ applyPairs s0 (pairs.take k) = some s1 ∧
          applyMark s1 pk.1.1 pk.1.2 pk.2 = none) ∧
      (∀ (k : Nat) (s1 : GameState) (pk : (Nat × Char) × Mark),
        pairs[k]? = some pk → applyPairs s0 (pairs.take k) = some s1 →
        applyMark s1 pk.1.1 pk.1.2 pk.2 = none →
        updateState s0 pairs = (s1, false))) := by
  constructor
  · intro s off c m
    cases hls : getLetter s c with
    | Unknown => cases m <;> simp [applyMark, hls]
    | NotPresent => cases m <;> simp [applyMark, hls]
    | Somewhere wrong right => cases m <;> simp [applyMark, hls]
  · intro s0 pairs
    induction pairs generalizing s0 with
    | nil =>
      constructor
      · simp [updateState]
      · intro k s1 pk hget htake hfail
        simp at hget
    | cons pr rest ih =>
      cases hap : applyMark s0 pr.1.1 pr.1.2 pr.2 with
      | none =>
        have hupd : updateState s0 (pr :: rest) = (s0, false) := by
          simp [updateState, hap]
        constructor
        · rw [hupd]
          constructor
          · intro _
            exact ⟨0, s0, pr, by simp, by simp [applyPairs], hap⟩
          · intro _
            rfl
        · intro k s1 pk hget htake hfail
          cases k with
          | zero =>
            simp [applyPairs] at hget htake
            subst hget
            subst htake
            exact hupd
          | succ j =>
            rw [List.take_succ_cons] at htake
            simp [applyPairs, hap] at htake
      | some s2 =>
        have hupd : updateState s0 (pr :: rest) = updateState s2 rest := by
          simp [updateState, hap]
        have ihs := ih s2
        constructor
        · rw [hupd, ihs.1]
          constructor
          · rintro ⟨k, s1, pk, hget, htake, hfail⟩
            refine ⟨k + 1, s1, pk, by simpa using hget, ?_, hfail⟩
            rw [List.take_succ_cons]
            simpa [applyPairs, hap] using htake
          · rintro ⟨k, s1, pk, hget, htake, hfail⟩
            cases k with
            | zero =>
              simp [applyPairs] at hget htake
              subst hget
              subst htake
              rw [hap] at hfail
              exact Option.noConfusion hfail
            | succ j =>
              refine ⟨j, s1, pk, by simpa using hget, ?_, hfail⟩
              rw [List.take_succ_cons] at htake
              simpa [applyPairs, hap] using htake
        · intro k s1 pk hget htake hfail
          cases k with
          | zero =>
            simp [applyPairs] at hget htake
            subst hget
            subst htake
            rw [hap] at hfail
            exact Option.noConfusion hfail
          | succ j =>
            rw [hupd]
            refine ihs.2 j s1 pk (by simpa using hget) ?_ hfail
            rw [List.take_succ_cons] at htake
            simpa [applyPairs, hap] using htake

/-- Witness for C10 at a concrete input: recording `'a'` as `NotPresent`
and then `'a'` as `Positioned` errors at the second pair and leaves the
first pair's mark applied in the returned state. -/
theorem claim10_updateErr_witness :
    updateState [] [((0, 'a'), Mark.NotPresent), ((1, 'a'), Mark.Positioned)] =
      ([('a', LetterState.NotPresent)], false) :=
  (claim10_updateErr.2 [] [((0, 'a'), Mark.NotPresent), ((1, 'a'), Mark.Positioned)]).2 1
    [('a', LetterState.NotPresent)] ((1, 'a'), Mark.Positioned)
    (by decide) (by decide) (by decide)

end WordleSolver
